import Mathlib

/-!
Verification of `setuptools_rust/tomlgen.py` (the `tomlgen_rust` command,
`_slugify`, and `find_rust_extensions`) against its natural-language
specification.

Shallow-embedding conventions:
* Filesystem paths are lists of path components (`Path := List String`);
  joining a component is `++ [c]`, `os.path.dirname` is `List.dropLast`,
  and paths produced by `os.walk` are taken relative to the current
  working directory, which is itself the empty component list `[]` (so
  `os.path.relpath(p)` with its default start is modelled as
  `relpath p []`).
* A `ConfigParser` document (both the parsed `setup.cfg` and the TOML
  document being built) is an ordered association list of sections, each
  an ordered association list of key/value strings; `ConfigParser.set`
  replaces the value in place when the key exists and appends otherwise
  (Python dict assignment on the section's option dict).  Keys are taken
  as the parser returns them (already case-normalised by `optionxform`).
* The filesystem is an ordered association list from paths to the
  document written there; `open(path, 'w')` followed by `toml.write` is
  an insert-or-replace of the built document, and `os.path.exists` is
  key membership.
* `distutils.log` calls are recorded as structured log entries.
-/

namespace Tomlgen

/-- Ordered association-list insert-or-replace: Python dict assignment
`d[k] = v` on an ordered dict represented as a list of pairs (replace the
value in place if the key is present, append otherwise).  This models both
`ConfigParser.set` on one section's options and a file write. -/
def setA {α β : Type} [DecidableEq α] : List (α × β) → α → β → List (α × β)
  | [], k, v => [(k, v)]
  | p :: l, k, v => if p.1 = k then (k, v) :: l else p :: setA l k v

/-- Ordered association-list lookup (first match). -/
def getA {α β : Type} [DecidableEq α] : List (α × β) → α → Option β
  | [], _ => none
  | p :: l, k => if p.1 = k then some p.2 else getA l k

/-- Left fold of `setA` over a list of key/value pairs: the effect of the
`for dep, options in ...: toml.set("dependencies", dep, options)` loop on a
single section's option list. -/
def setFold {α β : Type} [DecidableEq α] (init : List (α × β))
    (l : List (α × β)) : List (α × β) :=
  l.foldl (fun acc p => setA acc p.1 p.2) init

/-- Characters allowed by `_slugify`: the elements of
`string.ascii_letters + string.digits + '_'`. -/
def allowedChar (c : Char) : Bool :=
  ('a' ≤ c && c ≤ 'z') || ('A' ≤ c && c ≤ 'Z') || ('0' ≤ c && c ≤ '9') || c = '_'

/-- Body of `_slugify` on the character list: each character in the allowed set is
kept, every other character becomes an underscore. -/
def slugChars (name : List Char) : List Char :=
  name.map (fun c => if allowedChar c then c else '_')

/-- Model of `_slugify(name)` from `tomlgen.py`: keep ASCII letters, digits and
underscore, replace every other character by `_`. -/
def _slugify (name : String) : String :=
  String.mk (slugChars name.data)

/-- A filesystem path as a list of components. -/
abbrev Path := List String

/-- Length of the longest common prefix of two component lists. -/
def commonPrefixLen : List String → List String → Nat
  | a :: as, b :: bs => if a = b then commonPrefixLen as bs + 1 else 0
  | _, _ => 0

/-- Model of `os.path.relpath(p, start)` on component lists: drop the common prefix,
climb out of what remains of `start` with `..` components, and descend into
what remains of `p`; the empty result is `os.curdir` (`"."`). -/
def relpath (p start : Path) : Path :=
  let n := commonPrefixLen p start
  let r := List.replicate (start.length - n) ".." ++ p.drop n
  if r.isEmpty then ["."] else r

/-- Render a component list with the path separator (POSIX `/`). -/
def pathStr (p : Path) : String := String.intercalate "/" p

/-- Model of `path.replace(os.path.sep, '.')` on a component list: join the
components with dots. -/
def dotpath (p : Path) : String := String.intercalate "." p

/-- Wrap a string in double quotes, the source's quote helper. -/
def quote (s : String) : String := "\"" ++ s ++ "\""

/-- A `ConfigParser` document: an ordered list of sections, each holding an
ordered option list.  Section names are unique (`add_section` refuses
duplicates), so first-match lookup is dict lookup. -/
structure Toml where
  sections : List (String × List (String × String))
deriving DecidableEq

/-- A fresh `ConfigParser()` with no sections. -/
def Toml.empty : Toml := ⟨[]⟩

/-- Model of `ConfigParser.add_section`: append a new empty section. -/
def Toml.add_section (t : Toml) (s : String) : Toml :=
  ⟨t.sections ++ [(s, [])]⟩

/-- Model of `ConfigParser.set(s, k, v)`: update the option list of section `s`
(no effect when the section is absent; in the source the section is always
added first). -/
def Toml.set (t : Toml) (s k v : String) : Toml :=
  ⟨t.sections.map (fun sec => if sec.1 = s then (sec.1, setA sec.2 k v) else sec)⟩

/-- Look up the option list of a section. -/
def Toml.get (t : Toml) (s : String) : Option (List (String × String)) :=
  getA t.sections s

/-- The parsed configuration files (`self.cfg`), as a section/option lookup. -/
abbrev Config := List (String × List (String × String))

/-- Items of a configuration section, none
when the section is missing. -/
def cfgItems (cfg : Config) (s : String) : List (String × String) :=
  (getA cfg s).getD []

/-- Model of `tomlgen_rust.iter_dependencies`: yield the items of the
`<command>.dependencies` section, then (when an extension is given) the
items of `<command>.dependencies.<extension name>`. -/
def iter_dependencies (cfg : Config) (command : String)
    (extName : Option String) : List (String × String) :=
  let sections := [command ++ ".dependencies"] ++
    (match extName with
     | some n => [command ++ ".dependencies." ++ n]
     | none => [])
  sections.foldl (fun acc s => acc ++ cfgItems cfg s) []

/-- The extension record the generator consumes.  The `RustExtension` class
itself lives outside this file (in `extension.py`); per the spec (§3) an
extension is a record of a dotted name, a manifest path and a library source
path — exactly the fields `tomlgen.py` reads (`ext.name`, `ext.path`,
`ext.libfile`). -/
structure RustExtension where
  name : String
  path : Path
  libfile : Path
deriving DecidableEq

/-- The options and ambient state of a `tomlgen_rust` run after
`finalize_options`: the two boolean flags, the resolved author list literal,
the project version, the workspace root directory, the parsed configuration
and the command name used for section lookups. -/
structure TomlgenOpts where
  force : Bool
  create_workspace : Bool
  authors : String
  version : String
  workspace : Path
  cfg : Config
  command : String
deriving DecidableEq

/-- Model of `tomlgen_rust.build_cargo_toml(ext)`: the package, lib and dependencies
sections of one extension's `Cargo.toml`. -/
def build_cargo_toml (opts : TomlgenOpts) (ext : RustExtension) : Toml :=
  let tomldir := ext.path.dropLast
  let t := Toml.empty.add_section "package"
  let t := t.set "package" "name" (quote ext.name)
  let t := t.set "package" "version" (quote opts.version)
  let t := t.set "package" "authors" opts.authors
  let t := t.set "package" "publish" "false"
  let t := if opts.create_workspace then
      t.set "package" "workspace" (quote (pathStr (relpath opts.workspace tomldir)))
    else t
  let t := t.add_section "lib"
  let t := t.set "lib" "crate-type" "[\"cdylib\"]"
  let t := t.set "lib" "name" (quote (_slugify ext.name))
  let t := t.set "lib" "path" (quote (pathStr (relpath ext.libfile tomldir)))
  let t := t.add_section "dependencies"
  (iter_dependencies opts.cfg opts.command (some ext.name)).foldl
    (fun acc kv => acc.set "dependencies" kv.1 kv.2) t

/-- Model of `tomlgen_rust.build_workspace_toml`: a single `workspace` section whose
`members` value lists, for each extension, the directory of its manifest
relative to the current working directory. -/
def build_workspace_toml (exts : List RustExtension) : Toml :=
  let members := exts.map (fun e => quote (pathStr (relpath e.path []).dropLast))
  let t := Toml.empty.add_section "workspace"
  t.set "workspace" "members" ("[" ++ String.intercalate ", " members ++ "]")

/-- The filesystem: written manifest documents by path. -/
abbrev FS := List (Path × Toml)

/-- Model of `os.path.exists` restricted to the manifests this run can see. -/
def fsExists (fs : FS) (p : Path) : Bool := (getA fs p).isSome

/-- The `distutils.log` lines `run` can emit. -/
inductive LogEntry
  | infoCreating (extName : String)
  | warnSkipping (extName : String)
  | infoCreatingWorkspace
  | warnSkippingWorkspace
deriving DecidableEq

/-- The mutable state threaded through `run`: the filesystem and the log. -/
structure RunState where
  fs : FS
  logs : List LogEntry
deriving DecidableEq

/-- One iteration of the per-extension loop in `tomlgen_rust.run`: build the
extension's `Cargo.toml`; if its target path does not exist or `--force` is
set, write it and log an informational line, otherwise leave the filesystem
alone and log a warning. -/
def writeExtStep (opts : TomlgenOpts) (st : RunState) (ext : RustExtension) :
    RunState :=
  if !fsExists st.fs ext.path || opts.force then
    { fs := setA st.fs ext.path (build_cargo_toml opts ext),
      logs := st.logs ++ [LogEntry.infoCreating ext.name] }
  else
    { fs := st.fs, logs := st.logs ++ [LogEntry.warnSkipping ext.name] }

/-- The per-extension loop of `tomlgen_rust.run`. -/
def runLoop (opts : TomlgenOpts) (exts : List RustExtension) (st : RunState) :
    RunState :=
  exts.foldl (writeExtStep opts) st

/-- The workspace-manifest block at the end of `tomlgen_rust.run`
(`if self.create_workspace and self.extensions:`): it runs only when the
flag is set and the loop left its variable `ext` bound (the list was
non-empty); the existence check reuses that loop variable — the *last*
extension processed — while the write goes to `<workspace>/Cargo.toml`. -/
def workspaceStep (opts : TomlgenOpts) (exts : List RustExtension)
    (st : RunState) : RunState :=
  match exts.getLast? with
  | none => st
  | some lastExt =>
    if opts.create_workspace then
      if !fsExists st.fs lastExt.path || opts.force then
        { fs := setA st.fs (opts.workspace ++ ["Cargo.toml"])
                  (build_workspace_toml exts),
          logs := st.logs ++ [LogEntry.infoCreatingWorkspace] }
      else
        { fs := st.fs, logs := st.logs ++ [LogEntry.warnSkippingWorkspace] }
    else st

/-- Model of `tomlgen_rust.run`: the per-extension loop, then the workspace step. -/
def run (opts : TomlgenOpts) (exts : List RustExtension) (fs : FS) : RunState :=
  workspaceStep opts exts (runLoop opts exts ⟨fs, []⟩)

/-- Python `str.isspace` characters relevant to `str.strip()`. -/
def pyIsSpace (c : Char) : Bool :=
  c = ' ' || c = '\t' || c = '\n' || c = '\r' || c = '\x0b' || c = '\x0c'

/-- Python `str.strip(chars)`: drop characters satisfying `p` from both
ends. -/
def pyStripChars (p : Char → Bool) (s : List Char) : List Char :=
  ((s.dropWhile p).reverse.dropWhile p).reverse

/-- Python `str.split(sep)` for a one-character separator: keeps empty
fields, and the empty string splits to one empty field. -/
def pySplitOn (sep : Char) : List Char → List (List Char)
  | [] => [[]]
  | c :: rest =>
    if c = sep then [] :: pySplitOn sep rest
    else
      match pySplitOn sep rest with
      | [] => [[c]]
      | r :: rs => (c :: r) :: rs

/-- The characters stripped from the author email: `'"\''`. -/
def isQuoteChar (c : Char) : Bool := c = '"' || c = '\x27'

/-- Author resolution from `tomlgen_rust.finalize_options`, following the
source's format strings: an explicit `authors` option becomes
`"[{}]".format(", ".join(a.strip() for a in authors.split('\n')))`;
otherwise `'["{} <{}>"]'.format(author, author_email.strip('"\''))`. -/
def resolveAuthors (authors : Option String) (author authorEmail : String) :
    String :=
  match authors with
  | some a =>
    "[" ++ String.intercalate ", "
      ((pySplitOn '\n' a.data).map (fun e => String.mk (pyStripChars pyIsSpace e)))
      ++ "]"
  | none =>
    "[\"" ++ author ++ " <" ++
      String.mk (pyStripChars isQuoteChar authorEmail.data) ++ ">\"]"

/-- A sequence literal: entries joined by `", "` inside square brackets. -/
def seqLiteral (entries : List String) : String :=
  "[" ++ String.intercalate ", " entries ++ "]"

/-- Author resolution as the specification words it: an explicit multi-line
author list is split on line breaks, each entry whitespace-trimmed, and
formatted as a sequence literal of the raw entries; otherwise exactly one
author entry `"<author> <<email>>"` is synthesized, with surrounding quote
characters stripped from the email. -/
def resolveAuthorsSpec (authors : Option String) (author authorEmail : String) :
    String :=
  match authors with
  | some a =>
    seqLiteral
      ((pySplitOn '\n' a.data).map (fun e => String.mk (pyStripChars pyIsSpace e)))
  | none =>
    seqLiteral
      ["\"" ++ author ++ " <" ++
        String.mk (pyStripChars isQuoteChar authorEmail.data) ++ ">\""]

/-- One directory visited by `os.walk`: its path (relative to the current
working directory) and the plain files it contains. -/
structure WalkEntry where
  base : Path
  files : List String
deriving DecidableEq

/-- Model of `find_rust_extensions(*directories, libfile=...)`: walk each given root
(the current directory `[]` when none are given); every visited directory
containing `libfile` yields one extension whose name is the directory's
cwd-relative path with separators replaced by dots, whose manifest path is
`<directory>/Cargo.toml` and whose library source is the located entry
file.  The traversal `walk` is an input and is only read. -/
def find_rust_extensions (walk : Path → List WalkEntry)
    (directories : List Path) (libfile : String) : List RustExtension :=
  let dirs := if directories.isEmpty then [([] : Path)] else directories
  dirs.flatMap (fun d =>
    (walk d).flatMap (fun e =>
      if libfile ∈ e.files then
        [{ name := dotpath (relpath e.base []),
           path := e.base ++ ["Cargo.toml"],
           libfile := e.base ++ [libfile] }]
      else []))

/-! ### Lemmas about ordered association lists -/

theorem getA_cons {α β : Type} [DecidableEq α] (p : α × β) (l : List (α × β))
    (k : α) : getA (p :: l) k = if p.1 = k then some p.2 else getA l k := rfl

theorem setA_cons {α β : Type} [DecidableEq α] (p : α × β) (l : List (α × β))
    (k : α) (v : β) :
    setA (p :: l) k v = if p.1 = k then (k, v) :: l else p :: setA l k v := rfl

theorem getA_setA_self {α β : Type} [DecidableEq α] (l : List (α × β)) (k : α)
    (v : β) : getA (setA l k v) k = some v := by
  induction l with
  | nil => simp [setA, getA]
  | cons p l ih =>
    by_cases h : p.1 = k
    · simp [setA_cons, h, getA_cons]
    · simp [setA_cons, h, getA_cons, ih]

theorem getA_setA_ne {α β : Type} [DecidableEq α] (l : List (α × β)) {k k' : α}
    (v : β) (h : k' ≠ k) : getA (setA l k v) k' = getA l k' := by
  induction l with
  | nil => simp [setA, getA, Ne.symm h]
  | cons p l ih =>
    by_cases hp : p.1 = k
    · have hp' : p.1 ≠ k' := by rw [hp]; exact Ne.symm h
      simp [setA_cons, hp, getA_cons, Ne.symm h, hp']
    · simp [setA_cons, hp, getA_cons, ih]

theorem mem_keys_of_getA {α β : Type} [DecidableEq α] {l : List (α × β)}
    {k : α} {v : β} (h : getA l k = some v) : k ∈ l.map Prod.fst := by
  induction l with
  | nil => simp [getA] at h
  | cons p l ih =>
    by_cases hp : p.1 = k
    · simp [hp]
    · rw [getA_cons, if_neg hp] at h
      simp [ih h]

theorem keys_setA_of_mem {α β : Type} [DecidableEq α] {l : List (α × β)}
    {k : α} (v : β) (h : k ∈ l.map Prod.fst) :
    (setA l k v).map Prod.fst = l.map Prod.fst := by
  induction l with
  | nil => simp at h
  | cons p l ih =>
    by_cases hp : p.1 = k
    · simp [setA_cons, hp]
    · have h' : k ∈ l.map Prod.fst := by
        rcases List.mem_cons.mp h with h | h
        · exact absurd h.symm hp
        · exact h
      simp [setA_cons, hp, ih h']

theorem keys_setA_of_not_mem {α β : Type} [DecidableEq α] {l : List (α × β)}
    {k : α} (v : β) (h : k ∉ l.map Prod.fst) :
    (setA l k v).map Prod.fst = l.map Prod.fst ++ [k] := by
  induction l with
  | nil => simp [setA]
  | cons p l ih =>
    have hp : p.1 ≠ k := by
      intro hh
      exact h (by simp [hh])
    have h' : k ∉ l.map Prod.fst := by
      intro hh
      exact h (by simp [hh])
    simp [setA_cons, hp, ih h']

theorem nodup_keys_setA {α β : Type} [DecidableEq α] {l : List (α × β)}
    {k : α} (v : β) (h : (l.map Prod.fst).Nodup) :
    ((setA l k v).map Prod.fst).Nodup := by
  by_cases hm : k ∈ l.map Prod.fst
  · rw [keys_setA_of_mem v hm]; exact h
  · rw [keys_setA_of_not_mem v hm]
    simp [List.nodup_append, h, hm]

theorem setFold_cons {α β : Type} [DecidableEq α] (init : List (α × β))
    (p : α × β) (l : List (α × β)) :
    setFold init (p :: l) = setFold (setA init p.1 p.2) l := rfl

theorem getA_setFold_of_not_mem {α β : Type} [DecidableEq α]
    {l : List (α × β)} {k : α} (init : List (α × β))
    (h : k ∉ l.map Prod.fst) : getA (setFold init l) k = getA init k := by
  induction l generalizing init with
  | nil => rfl
  | cons p l ih =>
    have hp : k ≠ p.1 := by
      intro hh
      exact h (by simp [hh])
    have h' : k ∉ l.map Prod.fst := by
      intro hh
      exact h (by simp [hh])
    rw [setFold_cons, ih _ h', getA_setA_ne _ _ hp]

theorem getA_setFold_of_mem_nodup {α β : Type} [DecidableEq α]
    {l : List (α × β)} {k : α} {v : β} (init : List (α × β))
    (hnd : (l.map Prod.fst).Nodup) (hm : (k, v) ∈ l) :
    getA (setFold init l) k = some v := by
  induction l generalizing init with
  | nil => cases hm
  | cons p l ih =>
    rcases List.mem_cons.mp hm with h | h
    · have hk : p.1 = k := by rw [← h]
      have hnot : k ∉ l.map Prod.fst := by
        rw [← hk]
        exact (List.nodup_cons.mp (by simpa using hnd)).1
      rw [setFold_cons, getA_setFold_of_not_mem _ hnot, hk, ← h, getA_setA_self]
    · exact ih _ (List.nodup_cons.mp (by simpa using hnd)).2 h

theorem nodup_keys_setFold {α β : Type} [DecidableEq α] {l : List (α × β)}
    {init : List (α × β)} (h : (init.map Prod.fst).Nodup) :
    ((setFold init l).map Prod.fst).Nodup := by
  induction l generalizing init with
  | nil => exact h
  | cons p l ih => exact ih (nodup_keys_setA p.2 h)

theorem setFold_append {α β : Type} [DecidableEq α] (init : List (α × β))
    (l₁ l₂ : List (α × β)) :
    setFold init (l₁ ++ l₂) = setFold (setFold init l₁) l₂ := by
  simp [setFold, List.foldl_append]

/-! ### Lemmas about the TOML document builder -/

theorem get_set_self (t : Toml) (s k v : String) :
    (t.set s k v).get s = (t.get s).map (fun items => setA items k v) := by
  show getA (t.sections.map _) s = (getA t.sections s).map _
  induction t.sections with
  | nil => rfl
  | cons p l ih =>
    by_cases hp : p.1 = s
    · simp [getA_cons, hp]
    · simp [getA_cons, hp, ih]

theorem sections_map_fst_set (t : Toml) (s k v : String) :
    (t.set s k v).sections.map Prod.fst = t.sections.map Prod.fst := by
  show (t.sections.map _).map Prod.fst = _
  induction t.sections with
  | nil => rfl
  | cons p l ih =>
    by_cases hp : p.1 = s <;> simp [hp, ih]

theorem get_fold_set (deps : List (String × String)) (t : Toml) (s : String) :
    (deps.foldl (fun acc kv => acc.set s kv.1 kv.2) t).get s =
      (t.get s).map (fun items => setFold items deps) := by
  induction deps generalizing t with
  | nil => cases h : t.get s <;> simp [setFold, h]
  | cons kv deps ih =>
    rw [List.foldl_cons, ih, get_set_self]
    cases h : t.get s <;> simp [setFold_cons, h]

theorem sections_map_fst_fold_set (deps : List (String × String)) (t : Toml)
    (s : String) :
    ((deps.foldl (fun acc kv => acc.set s kv.1 kv.2) t).sections).map Prod.fst =
      t.sections.map Prod.fst := by
  induction deps generalizing t with
  | nil => rfl
  | cons kv deps ih => rw [List.foldl_cons, ih, sections_map_fst_set]

theorem iter_dependencies_eq (cfg : Config) (command n : String) :
    iter_dependencies cfg command (some n) =
      cfgItems cfg (command ++ ".dependencies") ++
        cfgItems cfg (command ++ ".dependencies." ++ n) := by
  simp [iter_dependencies]

theorem build_cargo_toml_get_dependencies (opts : TomlgenOpts)
    (ext : RustExtension) :
    (build_cargo_toml opts ext).get "dependencies" =
      some (setFold [] (iter_dependencies opts.cfg opts.command (some ext.name))) := by
  simp only [build_cargo_toml]
  rw [get_fold_set]
  by_cases hw : opts.create_workspace = true
  · rw [if_pos hw]; rfl
  · rw [if_neg hw]; rfl

theorem build_cargo_toml_sections (opts : TomlgenOpts) (ext : RustExtension) :
    (build_cargo_toml opts ext).sections.map Prod.fst =
      ["package", "lib", "dependencies"] := by
  simp only [build_cargo_toml]
  rw [sections_map_fst_fold_set]
  by_cases hw : opts.create_workspace = true
  · rw [if_pos hw]; rfl
  · rw [if_neg hw]; rfl

/-! ### Lemmas about the slug transform -/

theorem slugChars_length (s : List Char) : (slugChars s).length = s.length := by
  simp [slugChars]

theorem allowedChar_slugChars {s : List Char} {c : Char}
    (hc : c ∈ slugChars s) : allowedChar c = true := by
  simp only [slugChars, List.mem_map] at hc
  obtain ⟨a, -, rfl⟩ := hc
  by_cases h : allowedChar a = true
  · rw [if_pos h]; exact h
  · rw [if_neg h]; decide

theorem slugChars_allowed {s : List Char} (h : ∀ c ∈ s, allowedChar c = true) :
    slugChars s = s := by
  induction s with
  | nil => rfl
  | cons a as ih =>
    have ha := h a (List.mem_cons_self a as)
    show (if allowedChar a then a else '_') :: slugChars as = a :: as
    rw [if_pos ha, ih (fun c hc => h c (List.mem_cons_of_mem a hc))]

theorem slugChars_idem (s : List Char) : slugChars (slugChars s) = slugChars s :=
  slugChars_allowed (fun _ hc => allowedChar_slugChars hc)

theorem zip_slugChars (s : List Char) :
    ∀ p ∈ s.zip (slugChars s), p.2 = if allowedChar p.1 then p.1 else '_' := by
  induction s with
  | nil => intro p hp; simp [slugChars] at hp
  | cons a as ih =>
    intro p hp
    have hz : (a :: as).zip (slugChars (a :: as)) =
        (a, if allowedChar a then a else '_') :: as.zip (slugChars as) := rfl
    rw [hz, List.mem_cons] at hp
    rcases hp with h | h
    · rw [h]
    · exact ih p h

/-! ### Claim theorems about the slug transform -/

/-- C3: for every input string, `_slugify`'s output has the same length as
the input, every output character is an ASCII letter, digit or underscore,
characters already in the allowed set pass through unchanged, and every
other character is replaced by underscore. -/
theorem slugify_shape (s : String) :
    (_slugify s).length = s.length ∧
    (∀ c ∈ (_slugify s).data, allowedChar c = true) ∧
    (∀ p ∈ s.data.zip (_slugify s).data,
      p.2 = if allowedChar p.1 then p.1 else '_') := by
  refine ⟨?_, ?_, ?_⟩
  · exact slugChars_length s.data
  · intro c hc; exact allowedChar_slugChars hc
  · exact zip_slugChars s.data

/-- Witness for C3 at the concrete input `"my-lib"`. -/
theorem slugify_shape_witness :
    (_slugify "my-lib").length = "my-lib".length ∧ allowedChar '_' = true ∧
      ('_' : Char) = (if allowedChar '-' then '-' else '_') :=
  ⟨(slugify_shape "my-lib").1,
   (slugify_shape "my-lib").2.1 '_' (by decide),
   (slugify_shape "my-lib").2.2 ('-', '_') (by decide)⟩

/-- C10: `_slugify` is idempotent, and is the identity on strings all of
whose characters are ASCII letters, digits or underscores. -/
theorem slugify_idem (s : String) :
    _slugify (_slugify s) = _slugify s ∧
    ((∀ c ∈ s.data, allowedChar c = true) → _slugify s = s) := by
  constructor
  · show String.mk (slugChars (slugChars s.data)) = String.mk (slugChars s.data)
    rw [slugChars_idem]
  · intro h
    show String.mk (slugChars s.data) = s
    rw [slugChars_allowed h]

/-- Witness for C10 at the concrete inputs `"a-b"` and `"ab_1"`. -/
theorem slugify_idem_witness :
    _slugify (_slugify "a-b") = _slugify "a-b" ∧ _slugify "ab_1" = "ab_1" :=
  ⟨(slugify_idem "a-b").1, (slugify_idem "ab_1").2 (by decide)⟩

/-! ### Claim theorems about the generated manifest documents -/

/-- C5: a dependency key present in both the command-scoped global
dependencies section and the command-and-extension-scoped section appears in
the generated manifest's dependencies section exactly once, with the
per-extension section's value winning — the global section is read first and
the per-extension write lands last. -/
theorem deps_merge (opts : TomlgenOpts) (ext : RustExtension) (k v₁ v₂ : String)
    (hg : (k, v₁) ∈ cfgItems opts.cfg (opts.command ++ ".dependencies"))
    (hp : (k, v₂) ∈ cfgItems opts.cfg (opts.command ++ ".dependencies." ++ ext.name))
    (hnd : ((cfgItems opts.cfg (opts.command ++ ".dependencies." ++ ext.name)).map
      Prod.fst).Nodup) :
    ∃ items, (build_cargo_toml opts ext).get "dependencies" = some items ∧
      getA items k = some v₂ ∧ (items.map Prod.fst).count k = 1 := by
  refine ⟨setFold [] (iter_dependencies opts.cfg opts.command (some ext.name)),
    build_cargo_toml_get_dependencies opts ext, ?_, ?_⟩
  · rw [iter_dependencies_eq, setFold_append]
    exact getA_setFold_of_mem_nodup _ hnd hp
  · have hv : getA (setFold [] (iter_dependencies opts.cfg opts.command
        (some ext.name))) k = some v₂ := by
      rw [iter_dependencies_eq, setFold_append]
      exact getA_setFold_of_mem_nodup _ hnd hp
    have hnodup : ((setFold ([] : List (String × String))
        (iter_dependencies opts.cfg opts.command (some ext.name))).map
          Prod.fst).Nodup :=
      nodup_keys_setFold List.nodup_nil
    exact List.count_eq_one_of_mem hnodup (mem_keys_of_getA hv)

/-- Witness for C5: `serde` appears in both the global and the
per-extension dependency section of a concrete configuration, and the
per-extension value `"1.0"` wins, appearing exactly once. -/
theorem deps_merge_witness :
    ∃ items,
      (build_cargo_toml
        { force := false, create_workspace := false, authors := "[\"A <a@x>\"]",
          version := "1.0", workspace := [],
          cfg := [("tomlgen_rust.dependencies", [("serde", "\"0.9\"")]),
                  ("tomlgen_rust.dependencies.my.ext", [("serde", "\"1.0\"")])],
          command := "tomlgen_rust" }
        { name := "my.ext", path := ["my", "ext", "Cargo.toml"],
          libfile := ["my", "ext", "lib.rs"] }).get "dependencies" = some items ∧
      getA items "serde" = some "\"1.0\"" ∧
      (items.map Prod.fst).count "serde" = 1 :=
  deps_merge _ _ "serde" "\"0.9\"" "\"1.0\"" (by decide) (by decide) (by decide)

/-- C7: every per-extension manifest built by the generator contains exactly
one `package` section and exactly one `lib` section, and the workspace
manifest contains exactly one `workspace` section and no other sections. -/
theorem manifest_sections (opts : TomlgenOpts) (ext : RustExtension)
    (exts : List RustExtension) :
    ((build_cargo_toml opts ext).sections.map Prod.fst).count "package" = 1 ∧
    ((build_cargo_toml opts ext).sections.map Prod.fst).count "lib" = 1 ∧
    (build_workspace_toml exts).sections.map Prod.fst = ["workspace"] := by
  refine ⟨?_, ?_, rfl⟩
  · rw [build_cargo_toml_sections]; rfl
  · rw [build_cargo_toml_sections]; rfl

/-! ### Lemmas about the run loop and the filesystem -/

theorem mem_of_getLast?_eq_some {α : Type} {l : List α} {a : α}
    (h : l.getLast? = some a) : a ∈ l := by
  have hm : a ∈ l.getLast? := by rw [h]; rfl
  obtain ⟨hne, heq⟩ := List.mem_getLast?_eq_getLast hm
  rw [heq]
  exact List.getLast_mem hne

theorem workspaceStep_eq_none {opts : TomlgenOpts} {exts : List RustExtension}
    {st : RunState} (h : exts.getLast? = none) :
    workspaceStep opts exts st = st := by
  unfold workspaceStep
  rw [h]

theorem workspaceStep_eq_some {opts : TomlgenOpts} {exts : List RustExtension}
    {st : RunState} {lastExt : RustExtension}
    (h : exts.getLast? = some lastExt) :
    workspaceStep opts exts st =
      (if opts.create_workspace = true then
        if (!fsExists st.fs lastExt.path || opts.force) = true then
          { fs := setA st.fs (opts.workspace ++ ["Cargo.toml"])
                    (build_workspace_toml exts),
            logs := st.logs ++ [LogEntry.infoCreatingWorkspace] }
        else
          { fs := st.fs, logs := st.logs ++ [LogEntry.warnSkippingWorkspace] }
      else st) := by
  unfold workspaceStep
  rw [h]

theorem fsExists_setA_self (fs : FS) (p : Path) (t : Toml) :
    fsExists (setA fs p t) p = true := by
  simp [fsExists, getA_setA_self]

theorem fsExists_setA_mono (fs : FS) (p q : Path) (t : Toml)
    (h : fsExists fs q = true) : fsExists (setA fs p t) q = true := by
  by_cases hpq : q = p
  · rw [hpq]; exact fsExists_setA_self fs p t
  · rw [fsExists, getA_setA_ne _ _ hpq]; exact h

theorem writeExtStep_exists_self (opts : TomlgenOpts) (st : RunState)
    (e : RustExtension) : fsExists (writeExtStep opts st e).fs e.path = true := by
  by_cases hc : (!fsExists st.fs e.path || opts.force) = true
  · simp only [writeExtStep, if_pos hc]
    exact fsExists_setA_self st.fs e.path _
  · have he : fsExists st.fs e.path = true := by
      cases h : fsExists st.fs e.path
      · exact absurd (by rw [h]; rfl) hc
      · rfl
    simp only [writeExtStep, if_neg hc]
    exact he

theorem writeExtStep_mono (opts : TomlgenOpts) (st : RunState)
    (e : RustExtension) (q : Path) (h : fsExists st.fs q = true) :
    fsExists (writeExtStep opts st e).fs q = true := by
  by_cases hc : (!fsExists st.fs e.path || opts.force) = true
  · simp only [writeExtStep, if_pos hc]
    exact fsExists_setA_mono _ _ _ _ h
  · simp only [writeExtStep, if_neg hc]
    exact h

theorem runLoop_cons (opts : TomlgenOpts) (a : RustExtension)
    (exts : List RustExtension) (st : RunState) :
    runLoop opts (a :: exts) st = runLoop opts exts (writeExtStep opts st a) := rfl

theorem runLoop_mono (opts : TomlgenOpts) (exts : List RustExtension)
    (st : RunState) (q : Path) (h : fsExists st.fs q = true) :
    fsExists (runLoop opts exts st).fs q = true := by
  induction exts generalizing st with
  | nil => exact h
  | cons e exts ih =>
    rw [runLoop_cons]
    exact ih _ (writeExtStep_mono _ _ _ _ h)

theorem runLoop_exists_all (opts : TomlgenOpts) (exts : List RustExtension)
    (st : RunState) : ∀ e ∈ exts, fsExists (runLoop opts exts st).fs e.path = true := by
  induction exts generalizing st with
  | nil => intro e he; cases he
  | cons a exts ih =>
    intro e he
    rcases List.mem_cons.mp he with h | h
    · rw [h, runLoop_cons]
      exact runLoop_mono _ _ _ _ (writeExtStep_exists_self _ _ _)
    · rw [runLoop_cons]
      exact ih _ e h

theorem writeExtStep_skip (opts : TomlgenOpts) (st : RunState)
    (e : RustExtension) (hf : opts.force = false)
    (he : fsExists st.fs e.path = true) :
    writeExtStep opts st e =
      { fs := st.fs, logs := st.logs ++ [LogEntry.warnSkipping e.name] } := by
  simp [writeExtStep, he, hf]

theorem runLoop_fs_skip (opts : TomlgenOpts) (exts : List RustExtension)
    (fs : FS) (logs : List LogEntry) (hf : opts.force = false)
    (h : ∀ e ∈ exts, fsExists fs e.path = true) :
    (runLoop opts exts ⟨fs, logs⟩).fs = fs := by
  induction exts generalizing logs with
  | nil => rfl
  | cons a exts ih =>
    rw [runLoop_cons,
      writeExtStep_skip opts ⟨fs, logs⟩ a hf (h a (List.mem_cons_self a exts))]
    exact ih _ (fun e he => h e (List.mem_cons_of_mem a he))

theorem workspaceStep_mono (opts : TomlgenOpts) (exts : List RustExtension)
    (st : RunState) (q : Path) (h : fsExists st.fs q = true) :
    fsExists (workspaceStep opts exts st).fs q = true := by
  cases hL : exts.getLast? with
  | none => rw [workspaceStep_eq_none hL]; exact h
  | some lastExt =>
    rw [workspaceStep_eq_some hL]
    by_cases hw : opts.create_workspace = true
    · rw [if_pos hw]
      by_cases hc : (!fsExists st.fs lastExt.path || opts.force) = true
      · rw [if_pos hc]
        exact fsExists_setA_mono _ _ _ _ h
      · rw [if_neg hc]
        exact h
    · rw [if_neg hw]
      exact h

theorem run_exists_all (opts : TomlgenOpts) (exts : List RustExtension)
    (fs : FS) : ∀ e ∈ exts, fsExists (run opts exts fs).fs e.path = true :=
  fun e he => workspaceStep_mono _ _ _ _ (runLoop_exists_all opts exts ⟨fs, []⟩ e he)

/-! ### Claim theorems about `tomlgen_rust.run` -/

/-- C1: one iteration of the per-extension write loop obeys the overwrite
guard: a missing target file is written with the freshly built manifest and
an informational entry is logged; an existing target with the force flag
unset is left unchanged and a warning is logged; an existing target with
the force flag set is overwritten with the freshly built manifest. -/
theorem write_guard (opts : TomlgenOpts) (st : RunState) (ext : RustExtension) :
    (fsExists st.fs ext.path = false →
      writeExtStep opts st ext =
        { fs := setA st.fs ext.path (build_cargo_toml opts ext),
          logs := st.logs ++ [LogEntry.infoCreating ext.name] }) ∧
    (fsExists st.fs ext.path = true → opts.force = false →
      writeExtStep opts st ext =
        { fs := st.fs, logs := st.logs ++ [LogEntry.warnSkipping ext.name] }) ∧
    (fsExists st.fs ext.path = true → opts.force = true →
      getA (writeExtStep opts st ext).fs ext.path =
          some (build_cargo_toml opts ext) ∧
        (writeExtStep opts st ext).logs =
          st.logs ++ [LogEntry.infoCreating ext.name]) := by
  refine ⟨?_, ?_, ?_⟩
  · intro h
    simp [writeExtStep, h]
  · intro h hf
    simp [writeExtStep, h, hf]
  · intro h hf
    simp [writeExtStep, h, hf, getA_setA_self]

/-- Witness for C1: on an empty filesystem the manifest of a concrete
extension is written and an informational entry logged. -/
theorem write_guard_witness :
    fsExists ([] : FS) ["a", "Cargo.toml"] = false ∧
    writeExtStep
      { force := false, create_workspace := false, authors := "[\"A <a@x>\"]",
        version := "1", workspace := [], cfg := [], command := "tomlgen_rust" }
      ⟨[], []⟩
      { name := "a", path := ["a", "Cargo.toml"], libfile := ["a", "lib.rs"] } =
      { fs := setA ([] : FS) ["a", "Cargo.toml"]
          (build_cargo_toml
            { force := false, create_workspace := false,
              authors := "[\"A <a@x>\"]", version := "1", workspace := [],
              cfg := [], command := "tomlgen_rust" }
            { name := "a", path := ["a", "Cargo.toml"],
              libfile := ["a", "lib.rs"] }),
        logs := [LogEntry.infoCreating "a"] } :=
  ⟨rfl, (write_guard _ ⟨[], []⟩ _).1 rfl⟩

/-- C2: the workspace-manifest block runs only when the create-workspace
flag is set and the extension list is non-empty, and both its existence
check and the guard of its write test the manifest path of the *last*
extension processed by the loop, while the write itself targets
`<workspace>/Cargo.toml`. -/
theorem workspace_guard (opts : TomlgenOpts) (exts : List RustExtension)
    (fs : FS) :
    (opts.create_workspace = false →
      run opts exts fs = runLoop opts exts ⟨fs, []⟩) ∧
    (exts = [] → run opts exts fs = runLoop opts exts ⟨fs, []⟩) ∧
    (∀ lastExt, exts.getLast? = some lastExt → opts.create_workspace = true →
      run opts exts fs =
        (if fsExists (runLoop opts exts ⟨fs, []⟩).fs lastExt.path = false ∨
            opts.force = true then
          { fs := setA (runLoop opts exts ⟨fs, []⟩).fs
              (opts.workspace ++ ["Cargo.toml"]) (build_workspace_toml exts),
            logs := (runLoop opts exts ⟨fs, []⟩).logs ++
              [LogEntry.infoCreatingWorkspace] }
        else
          { fs := (runLoop opts exts ⟨fs, []⟩).fs,
            logs := (runLoop opts exts ⟨fs, []⟩).logs ++
              [LogEntry.warnSkippingWorkspace] })) := by
  refine ⟨?_, ?_, ?_⟩
  · intro h
    show workspaceStep opts exts _ = _
    cases hL : exts.getLast? with
    | none => exact workspaceStep_eq_none hL
    | some lastExt =>
      rw [workspaceStep_eq_some hL, if_neg (by rw [h]; exact Bool.false_ne_true)]
  · intro h
    rw [h]
    rfl
  · intro lastExt hL hw
    show workspaceStep opts exts _ = _
    rw [workspaceStep_eq_some hL, if_pos hw]
    cases hb : fsExists (runLoop opts exts ⟨fs, []⟩).fs lastExt.path <;>
      cases hf : opts.force <;> simp [hb, hf]

/-- Concrete options for the C2 witness. -/
def wsOpts : TomlgenOpts :=
  { force := false, create_workspace := true, authors := "[\"A <a@x>\"]",
    version := "1", workspace := ["proj"], cfg := [], command := "tomlgen_rust" }

/-- Concrete extension for the C2 witness. -/
def wsExt : RustExtension :=
  { name := "a", path := ["a", "Cargo.toml"], libfile := ["a", "lib.rs"] }

/-- Witness for C2: with the create-workspace flag set and one concrete
extension, the workspace block's guard tests that extension's manifest
path and its write targets `proj/Cargo.toml`. -/
theorem workspace_guard_witness :
    [wsExt].getLast? = some wsExt ∧ wsOpts.create_workspace = true ∧
    run wsOpts [wsExt] [] =
      (if fsExists (runLoop wsOpts [wsExt] ⟨[], []⟩).fs wsExt.path = false ∨
          wsOpts.force = true then
        { fs := setA (runLoop wsOpts [wsExt] ⟨[], []⟩).fs
            (wsOpts.workspace ++ ["Cargo.toml"]) (build_workspace_toml [wsExt]),
          logs := (runLoop wsOpts [wsExt] ⟨[], []⟩).logs ++
            [LogEntry.infoCreatingWorkspace] }
      else
        { fs := (runLoop wsOpts [wsExt] ⟨[], []⟩).fs,
          logs := (runLoop wsOpts [wsExt] ⟨[], []⟩).logs ++
            [LogEntry.warnSkippingWorkspace] }) :=
  ⟨rfl, rfl, (workspace_guard wsOpts [wsExt] []).2.2 wsExt rfl rfl⟩

/-- C8: running the generator a second time with the force flag unset, on
the filesystem a first run produced from unchanged inputs, changes no file:
every per-extension target already exists so every write is skipped, and
the workspace block's existence check (the last extension's path) also
finds its target present. -/
theorem run_idempotent_no_force (opts : TomlgenOpts)
    (exts : List RustExtension) (fs : FS) :
    (run { opts with force := false } exts (run opts exts fs).fs).fs =
      (run opts exts fs).fs := by
  have hall : ∀ e ∈ exts, fsExists (run opts exts fs).fs e.path = true :=
    run_exists_all opts exts fs
  have hloop : (runLoop { opts with force := false } exts
      ⟨(run opts exts fs).fs, []⟩).fs = (run opts exts fs).fs :=
    runLoop_fs_skip _ _ _ _ rfl hall
  show (workspaceStep _ exts (runLoop _ exts _)).fs = _
  cases hL : exts.getLast? with
  | none => rw [workspaceStep_eq_none hL]; exact hloop
  | some lastExt =>
    rw [workspaceStep_eq_some hL]
    by_cases hw : ({ opts with force := false } : TomlgenOpts).create_workspace = true
    · rw [if_pos hw]
      have hex : fsExists (runLoop { opts with force := false } exts
          ⟨(run opts exts fs).fs, []⟩).fs lastExt.path = true := by
        rw [hloop]
        exact hall lastExt (mem_of_getLast?_eq_some hL)
      have hcond : (!fsExists (runLoop { opts with force := false } exts
          ⟨(run opts exts fs).fs, []⟩).fs lastExt.path ||
            ({ opts with force := false } : TomlgenOpts).force) = false := by
        rw [hex]
        rfl
      rw [if_neg (by rw [hcond]; exact Bool.false_ne_true)]
      exact hloop
    · rw [if_neg hw]
      exact hloop

/-! ### Author resolution -/

/-- C6: author resolution matches the specification: an explicit multi-line
author list is split on line breaks, each entry whitespace-trimmed, and the
entries are formatted as a sequence literal of raw strings; otherwise
exactly one author entry `"<author> <<email>>"` is synthesized, with
surrounding single or double quote characters stripped from the email
before embedding. -/
theorem authors_resolution (authors : Option String)
    (author authorEmail : String) :
    resolveAuthors authors author authorEmail =
      resolveAuthorsSpec authors author authorEmail := by
  cases authors with
  | some a => rfl
  | none =>
    show "[\"" ++ author ++ " <" ++
        String.mk (pyStripChars isQuoteChar authorEmail.data) ++ ">\"]" =
      "[" ++ ("\"" ++ author ++ " <" ++
        String.mk (pyStripChars isQuoteChar authorEmail.data) ++ ">\"") ++ "]"
    apply String.ext
    simp [String.data_append]

/-! ### Discovery -/

theorem flatMap_if_singleton {α β : Type} (l : List α) (p : α → Prop)
    [DecidablePred p] (f : α → β) :
    (l.flatMap fun a => if p a then [f a] else []) =
      (l.filter fun a => decide (p a)).map f := by
  induction l with
  | nil => rfl
  | cons a l ih =>
    by_cases h : p a <;> simp [h, ih]

theorem flatMap_filter_map {α β γ : Type} (dirs : List α) (walk : α → List β)
    (p : β → Bool) (f : β → γ) :
    (dirs.flatMap fun d => ((walk d).filter p).map f) =
      ((dirs.flatMap walk).filter p).map f := by
  induction dirs with
  | nil => rfl
  | cons d dirs ih => simp [List.filter_append, ih]

theorem find_rust_extensions_eq (walk : Path → List WalkEntry)
    (directories : List Path) (libfile : String) :
    find_rust_extensions walk directories libfile =
      (((if directories.isEmpty then [([] : Path)] else directories).flatMap
          walk).filter (fun e => decide (libfile ∈ e.files))).map
        (fun e => { name := dotpath (relpath e.base []),
                    path := e.base ++ ["Cargo.toml"],
                    libfile := e.base ++ [libfile] }) := by
  simp only [find_rust_extensions]
  rw [← flatMap_filter_map]
  congr 1
  funext d
  exact flatMap_if_singleton (walk d) (fun e => libfile ∈ e.files) _

/-- C4: discovery yields exactly one extension per visited directory that
contains the entry filename and none for the others; each extension's name
is the directory's cwd-relative path with separators replaced by dots, its
manifest path is the directory joined with `Cargo.toml`, and its library
source path is the located entry file. -/
theorem find_extensions_spec (walk : Path → List WalkEntry)
    (directories : List Path) (libfile : String) :
    find_rust_extensions walk directories libfile =
      (((if directories.isEmpty then [([] : Path)] else directories).flatMap
          walk).filter (fun e => decide (libfile ∈ e.files))).map
        (fun e => { name := dotpath (relpath e.base []),
                    path := e.base ++ ["Cargo.toml"],
                    libfile := e.base ++ [libfile] }) ∧
    (find_rust_extensions walk directories libfile).length =
      ((if directories.isEmpty then [([] : Path)] else directories).flatMap
        walk).countP (fun e => decide (libfile ∈ e.files)) := by
  refine ⟨find_rust_extensions_eq walk directories libfile, ?_⟩
  rw [find_rust_extensions_eq walk directories libfile, List.length_map,
    List.countP_eq_length_filter]

/-- C9: when no visited directory contains the entry filename, discovery
returns the empty list.  In this embedding `find_rust_extensions` is a pure
function of the read-only traversal `walk`: it produces only the extension
list, performs no writes and raises no error. -/
theorem find_extensions_no_match (walk : Path → List WalkEntry)
    (directories : List Path) (libfile : String)
    (h : ∀ e ∈ (if directories.isEmpty then [([] : Path)]
        else directories).flatMap walk, libfile ∉ e.files) :
    find_rust_extensions walk directories libfile = [] := by
  rw [find_rust_extensions_eq,
    List.filter_eq_nil_iff.mpr (fun e he => by simpa using h e he)]
  rfl

/-- Witness for C9: a concrete traversal whose only directory holds just
`main.rs` yields no extensions when searching for `lib.rs`. -/
theorem find_extensions_no_match_witness :
    find_rust_extensions (fun _ => [⟨["r"], ["main.rs"]⟩]) [["r"]] "lib.rs" = [] :=
  find_extensions_no_match _ _ _ (by decide)

end Tomlgen
